import Mathlib

/-!
Verification of the passepartout template-composition library.

The Go source is shallowly embedded.  Pure string helpers mirror
`path.Ext` and `strings.TrimSuffix`.  The filesystem abstraction is a
finite map from paths to contents together with explicit injection
points for generic (non not-exists) errors, so that the error-handling
branches of the source are exercised.  The template execution engine is
an external collaborator of the library, so it enters the embedding as
parameters: `parses` decides whether a fragment's source is valid
template syntax, and an `exec` parameter models `ExecuteTemplate`.
Go errors become an inductive type; `fmt.Errorf("...: %w", err)`
becomes `Err.wrap`.  A template namespace is an association list from
template name to the content of the last successful parse under that
name, and the mutable `*template.Template` objects live in an explicit
heap `THeap`, so that cloning (`base.Clone()`) versus in-place mutation
of a shared base is observable.
-/

/-- `FileWithContent` from `ppdefaults/loader.go`: a fragment's logical
path and its raw template source. -/
structure FileWithContent where
  name : String
  content : String
  deriving DecidableEq, Repr

/-- Go error values as they occur in this library.  `notExist` is
`fs.ErrNotExist`; `fsErr` is any other filesystem error (permission
and the like); `parseErr name` is a template-engine parse error, which
in Go carries the name of the failing template (the name was set with
`tmplt.New(file.Name)` and Go template parse errors are rendered as
`template: <name>:<line>: ...`); `wrap msg e` is
`fmt.Errorf(msg ++ ": %w", e)`. -/
inductive Err where
  | notExist (path : String)
  | fsErr (path : String)
  | parseErr (name : String)
  | wrap (msg : String) (inner : Err)
  deriving DecidableEq, Repr

/-- `errors.Is(e, fs.ErrNotExist)`: whether the error chain bottoms out
at a not-exists error. -/
def Err.isNotExist : Err → Bool
  | .notExist _ => true
  | .wrap _ e => e.isNotExist
  | _ => false

/-- The fragment store: regular files as a path-to-content map, plus
the paths whose read fails with a generic (non not-exists) error
(`badReads`) and the directory roots whose walk fails with a generic
error (`badWalk`).  The `files` list is kept in the order in which
`fs.WalkDir` visits them (lexical order for `fstest.MapFS`). -/
structure FSys where
  files : List (String × String)
  badReads : List String
  badWalk : List String
  deriving DecidableEq, Repr

/-- Association-list lookup used for the file map. -/
def lookupPairs : List (String × String) → String → Option String
  | [], _ => none
  | (k, v) :: rest, p => if k = p then some v else lookupPairs rest p

/-- `fs.ReadFile`: a generic error for injected bad paths, the content
for present files, `fs.ErrNotExist` otherwise. -/
def FSys.readFile (fsys : FSys) (p : String) : Except Err String :=
  if fsys.badReads.contains p then .error (.fsErr p)
  else
    match lookupPairs fsys.files p with
    | some c => .ok c
    | none => .error (.notExist p)

/-- Helper for `path.Ext`: the input is the reversed character list of
the path, `acc` the characters already scanned (in original order);
mirrors Go's backwards scan stopping at `/` and returning from the
last `.`. -/
def extAux : List Char → List Char → List Char
  | [], _ => []
  | c :: rest, acc =>
    if c = '/' then []
    else if c = '.' then c :: acc
    else extAux rest (c :: acc)

/-- Go's `path.Ext`: the suffix beginning at the final dot in the final
slash-separated element, or `""`. -/
def goPathExt (p : String) : String := ⟨extAux p.data.reverse []⟩

/-- Go's `strings.TrimSuffix`. -/
def trimSuffix (s suf : String) : String :=
  if suf.data.isSuffixOf s.data then ⟨s.data.take (s.data.length - suf.data.length)⟩ else s

/-- The partial directory computed by both partial resolvers in
`ppdefaults/partials.go`: `strings.TrimSuffix(name, path.Ext(name))`. -/
def partialDir (name : String) : String := trimSuffix name (goPathExt name)

/-- `%q` formatting of a name inside Go error messages (escaping of
interior quotes is not modelled; template names here carry none). -/
def goQuote (s : String) : String := "\"" ++ s ++ "\""

/-- The layout wrapping applied by `TemplateByNameLoader.InLayout`:
`'{{ define "content" }}' + content + '{{ end }}'` (braces written as
escapes). -/
def wrapInContent (c : String) : String :=
  "\x7b\x7b define \"content\" \x7d\x7d" ++ c ++ "\x7b\x7b end \x7d\x7d"

/-- Whether path `p` lies at or below directory root `dir` (the set of
paths `fs.WalkDir` visits when started at `dir`). -/
def isUnder (dir p : String) : Bool := decide (p = dir) || (dir ++ "/").data.isPrefixOf p.data

/-- The regular files `fs.WalkDir` visits below `dir`, in walk order. -/
def FSys.pathsUnder (fsys : FSys) (dir : String) : List String :=
  (fsys.files.filter (fun f => isUnder dir f.1)).map (fun f => f.1)

/-- The body of the walk in `PartialsInFolderOnly.Load` /
`PartialsWithCommon.Load`: read every visited file in order, aborting
on the first read error. -/
def readAll (fsys : FSys) : List String → Except Err (List FileWithContent)
  | [] => .ok []
  | p :: rest =>
    match fsys.readFile p with
    | .error e => .error e
    | .ok c =>
      match readAll fsys rest with
      | .error e => .error e
      | .ok l => .ok (⟨p, c⟩ :: l)

/-- One directory walk of `partials.go`: a generic error at the root
propagates; a not-exists root is swallowed into an empty result
(`errors.Is(err, fs.ErrNotExist)` branch); otherwise every visited
file is read. -/
def walkPartialFiles (fsys : FSys) (dir : String) : Except Err (List FileWithContent) :=
  if fsys.badWalk.contains dir then .error (.fsErr dir)
  else if (fsys.pathsUnder dir).isEmpty then .ok []
  else readAll fsys (fsys.pathsUnder dir)

/-- `PartialsInFolderOnly.Load` from `ppdefaults/partials.go`. -/
def PartialsInFolderOnly.Load (fsys : FSys) (name : String) : Except Err (List FileWithContent) :=
  walkPartialFiles fsys (partialDir name)

/-- `PartialsWithCommon.Load` from `ppdefaults/partials.go`: the page's
folder walk followed by the configured common directory walk, results
appended, first error aborting. -/
def PartialsWithCommon.Load (fsys : FSys) (commonDir name : String) : Except Err (List FileWithContent) :=
  match walkPartialFiles fsys (partialDir name) with
  | .error e => .error e
  | .ok a =>
    match walkPartialFiles fsys commonDir with
    | .error e => .error e
    | .ok b => .ok (a ++ b)

/-- A template namespace: name of each defined sub-template mapped to
the content of its last successful parse. -/
abbrev TemplateNS := List (String × String)

/-- Map update for a namespace (`t.New(name).Parse(content)` replaces
any previous definition under `name`). -/
def nsSet : TemplateNS → String → String → TemplateNS
  | [], name, content => [(name, content)]
  | (n, c) :: rest, name, content =>
    if n = name then (n, content) :: rest else (n, c) :: nsSet rest name content

/-- `t.Lookup(name)`: the content stored under a template name. -/
def nsLookup : TemplateNS → String → Option String
  | [], _ => none
  | (n, c) :: rest, name => if n = name then some c else nsLookup rest name

/-- Read a heap cell (out-of-range reads give the empty namespace). -/
def cellGet : List TemplateNS → Nat → TemplateNS
  | [], _ => []
  | ns :: _, 0 => ns
  | _ :: rest, n + 1 => cellGet rest n

/-- Write a heap cell (out-of-range writes are dropped). -/
def cellSet : List TemplateNS → Nat → TemplateNS → List TemplateNS
  | [], _, _ => []
  | _ :: rest, 0, ns => ns :: rest
  | a :: rest, n + 1, ns => a :: cellSet rest n ns

/-- The heap of live `*template.Template` namespaces; a Go template
pointer is an index into it. -/
structure THeap where
  cells : List TemplateNS
  deriving DecidableEq, Repr

def THeap.get (h : THeap) (r : Nat) : TemplateNS := cellGet h.cells r

def THeap.set (h : THeap) (r : Nat) (ns : TemplateNS) : THeap := ⟨cellSet h.cells r ns⟩

/-- Allocate a fresh template object holding namespace `ns` (this is
what `base.Clone()` and `template.New("")` do). -/
def THeap.alloc (h : THeap) (ns : TemplateNS) : THeap × Nat := (⟨h.cells ++ [ns]⟩, h.cells.length)

/-- `tmplt.New(name).Parse(content)`: on parse success the namespace of
the template object `r` gains/overwrites the definition, on failure no
executable definition is installed. -/
def newParse (parses : String → Bool) (h : THeap) (r : Nat) (name content : String) : THeap × Bool :=
  if parses content then (h.set r (nsSet (h.get r) name content), true) else (h, false)

/-- The parse loop of `CreateTemplate`: each fragment in input order,
aborting on the first parse failure with the wrapped engine error
(which carries the failing template's name). -/
def parseFiles (parses : String → Bool) : THeap → Nat → List FileWithContent → THeap × Except Err Nat
  | h, r, [] => (h, .ok r)
  | h, r, f :: rest =>
    match newParse parses h r f.name f.content with
    | (h2, true) => parseFiles parses h2 r rest
    | (h2, false) => (h2, .error (.wrap ("failed to parse template") (.parseErr f.name)))

/-- `CreateTemplate` from `ppdefaults/loader.go`: clone the base when
one is supplied (a fresh heap cell copying its namespace), otherwise
start from `template.New("")` (a fresh empty cell), then parse every
fragment into the new cell.  On error the returned template is nil
(`Except.error` carries no reference). -/
def CreateTemplate (parses : String → Bool) (h : THeap) (base : Option Nat)
    (files : List FileWithContent) : THeap × Except Err Nat :=
  match base with
  | some b =>
    match h.alloc (h.get b) with
    | (h1, r) => parseFiles parses h1 r files
  | none =>
    match h.alloc [] with
    | (h1, r) => parseFiles parses h1 r files

/-- The value-level view of `CreateTemplate` used by the loader
pipeline: run it on a one-cell heap holding the base (if any) and
return the namespace of the produced unit. -/
def createTemplateNS (parses : String → Bool) (base : Option TemplateNS)
    (files : List FileWithContent) : Except Err TemplateNS :=
  match CreateTemplate parses ⟨base.toList⟩ (base.map (fun _ => 0)) files with
  | (h2, .ok r) => .ok (h2.get r)
  | (_, .error e) => .error e

/-- The content of the last fragment in the list carrying a given name
(the specification-side description of "last parse wins"). -/
def lastContent : List FileWithContent → String → Option String
  | [], _ => none
  | f :: rest, n =>
    match lastContent rest n with
    | some c => some c
    | none => if f.name = n then some f.content else none

/-- The `Loader` of `ppdefaults/loader.go` with its function-typed
fields; the `TemplateLoader` interface is flattened into its two
methods, and `CreateTemplate` is a field with the configured base
already applied (as `l.CreateTemplate(l.TemplateConfig, files)` does).
The result type of assembly is a parameter so that what the loader
passes to the assembler is observable. -/
structure LoaderM (τ : Type) where
  partialsFor : String → Except Err (List FileWithContent)
  tlStandalone : String → Except Err (List FileWithContent)
  tlInLayout : String → String → Except Err (List FileWithContent)
  createTemplate : List FileWithContent → Except Err τ

/-- `flatMap` from `ppdefaults/loader.go`: apply each collector to the
name, concatenating results, aborting on the first error. -/
def flatMap (name : String) : List (String → Except Err (List FileWithContent)) → Except Err (List FileWithContent)
  | [] => .ok []
  | fn :: rest =>
    match fn name with
    | .error e => .error e
    | .ok r =>
      match flatMap name rest with
      | .error e => .error e
      | .ok rs => .ok (r ++ rs)

/-- `Loader.Standalone` from `ppdefaults/loader.go`. -/
def LoaderM.Standalone {τ : Type} (l : LoaderM τ) (name : String) : Except Err τ :=
  match flatMap name [l.partialsFor, l.tlStandalone] with
  | .error e => .error (.wrap ("failed to collect all files for " ++ goQuote name) e)
  | .ok files =>
    match l.createTemplate files with
    | .error e => .error (.wrap ("failed to create template for " ++ goQuote name) e)
    | .ok t => .ok t

/-- `Loader.InLayout` from `ppdefaults/loader.go`: partials, then the
template loader's layouted fragments, appended in that order and fed
to the assembler. -/
def LoaderM.InLayout {τ : Type} (l : LoaderM τ) (page layout : String) : Except Err τ :=
  match l.partialsFor page with
  | .error e => .error (.wrap ("failed to collect partials for " ++ goQuote page) e)
  | .ok partials =>
    match l.tlInLayout page layout with
    | .error e =>
      .error (.wrap ("failed to collect all for " ++ goQuote page ++ " in layout " ++ goQuote layout) e)
    | .ok pageFiles =>
      match l.createTemplate (partials ++ pageFiles) with
      | .error e =>
        .error (.wrap ("failed to create template for " ++ goQuote page ++ " in layout " ++ goQuote layout) e)
      | .ok t => .ok t

/-- `TemplateByNameLoader.Standalone` from `ppdefaults/loader.go`. -/
def TemplateByNameLoader.Standalone (fsys : FSys) (name : String) : Except Err (List FileWithContent) :=
  match fsys.readFile name with
  | .error e => .error (.wrap ("failed to read template") e)
  | .ok c => .ok [⟨name, c⟩]

/-- `TemplateByNameLoader.InLayout` from `ppdefaults/loader.go`: load
the page, wrap each page fragment's content as the reserved "content"
section, read the layout, and prepend the layout fragment. -/
def TemplateByNameLoader.InLayout (fsys : FSys) (name layout : String) : Except Err (List FileWithContent) :=
  match TemplateByNameLoader.Standalone fsys name with
  | .error e => .error e
  | .ok pages =>
    let wrapped := pages.map (fun f => FileWithContent.mk f.name (wrapInContent f.content))
    match fsys.readFile layout with
    | .error e => .error (.wrap ("failed to read layout template") e)
    | .ok lc => .ok (⟨layout, lc⟩ :: wrapped)

/-- `LoaderBuilder.WithDefaults`: the default loader stack over a
filesystem (folder-only partials, by-name template loader, the default
assembler with a nil base configuration). -/
def WithDefaults (parses : String → Bool) (fsys : FSys) : LoaderM TemplateNS :=
  ⟨PartialsInFolderOnly.Load fsys,
   TemplateByNameLoader.Standalone fsys,
   TemplateByNameLoader.InLayout fsys,
   fun files => createTemplateNS parses none files⟩

/-- `Passepartout.Render` over the default stack: the writer is a
string accumulator; a fetch failure returns the error with the writer
untouched; on success `ExecuteTemplate` (modelled by the external
`exec` parameter, returning the bytes it streamed and an optional
execution error) appends to the writer. -/
def Passepartout.Render (parses : String → Bool) (exec : TemplateNS → String → String × Option Err)
    (fsys : FSys) (out name : String) : String × Option Err :=
  match LoaderM.Standalone (WithDefaults parses fsys) name with
  | .error e => (out, some e)
  | .ok t => (out ++ (exec t name).1, (exec t name).2)

/-- The state of a `CachedLoader`: its `sync.Map` as an association
list, plus an instrumentation counter of how many times the underlying
loader has been invoked. -/
structure CState where
  data : List (String × List FileWithContent)
  calls : Nat
  deriving DecidableEq, Repr

/-- `sync.Map.Load` on the cache map. -/
def lookupCache : List (String × List FileWithContent) → String → Option (List FileWithContent)
  | [], _ => none
  | (k, v) :: rest, key => if k = key then some v else lookupCache rest key

/-- `CachedLoader.loadOrStore`: a hit returns the stored result; a miss
invokes the underlying loader (the `load` oracle, indexed by the
invocation counter); an error is returned without storing; a success
is stored under the key. -/
def CachedLoader.loadOrStore (s : CState) (cacheKey : String)
    (load : Nat → Except Err (List FileWithContent)) : CState × Except Err (List FileWithContent) :=
  match lookupCache s.data cacheKey with
  | some v => (s, .ok v)
  | none =>
    match load s.calls with
    | .error e => (⟨s.data, s.calls + 1⟩, .error e)
    | .ok files => (⟨(cacheKey, files) :: s.data, s.calls + 1⟩, .ok files)

/-- The standalone cache key: the page name verbatim. -/
def cacheKeyStandalone (name : String) : String := name

/-- The layouted cache key: `name + "|" + layout`. -/
def cacheKeyInLayout (name layout : String) : String := name ++ "|" ++ layout

/-- The underlying loader of a `CachedLoader`, as oracles indexed by
the invocation counter (so that "how often was it invoked" and "what
did each invocation return" are expressible). -/
structure UnderLoader where
  standalone : Nat → String → Except Err (List FileWithContent)
  inLayout : Nat → String → String → Except Err (List FileWithContent)

/-- `CachedLoader.Standalone`. -/
def CachedLoader.Standalone (u : UnderLoader) (s : CState) (name : String) :
    CState × Except Err (List FileWithContent) :=
  CachedLoader.loadOrStore s (cacheKeyStandalone name) (fun i => u.standalone i name)

/-- `CachedLoader.InLayout`. -/
def CachedLoader.InLayout (u : UnderLoader) (s : CState) (name layout : String) :
    CState × Except Err (List FileWithContent) :=
  CachedLoader.loadOrStore s (cacheKeyInLayout name layout) (fun i => u.inLayout i name layout)

/-! ### Helper lemmas about the heap -/

theorem length_cellSet (l : List TemplateNS) (i : Nat) (ns : TemplateNS) :
    (cellSet l i ns).length = l.length := by
  induction l generalizing i with
  | nil => rfl
  | cons a t ih =>
    cases i with
    | zero => rfl
    | succ n => simp [cellSet, ih]

theorem cellGet_cellSet_self (l : List TemplateNS) (i : Nat) (ns : TemplateNS)
    (hi : i < l.length) : cellGet (cellSet l i ns) i = ns := by
  induction l generalizing i with
  | nil => simp at hi
  | cons a t ih =>
    cases i with
    | zero => rfl
    | succ n => exact ih n (by simpa using hi)

theorem cellGet_cellSet_ne (l : List TemplateNS) (i j : Nat) (ns : TemplateNS)
    (hij : j ≠ i) : cellGet (cellSet l i ns) j = cellGet l j := by
  induction l generalizing i j with
  | nil => rfl
  | cons a t ih =>
    cases i with
    | zero =>
      cases j with
      | zero => exact absurd rfl hij
      | succ m => rfl
    | succ n =>
      cases j with
      | zero => rfl
      | succ m => exact ih n m (fun hc => hij (by rw [hc]))

theorem cellGet_append_lt (l l2 : List TemplateNS) (i : Nat) (hi : i < l.length) :
    cellGet (l ++ l2) i = cellGet l i := by
  induction l generalizing i with
  | nil => simp at hi
  | cons a t ih =>
    cases i with
    | zero => rfl
    | succ n => exact ih n (by simpa using hi)

theorem cellGet_append_len (l : List TemplateNS) (ns : TemplateNS) :
    cellGet (l ++ [ns]) l.length = ns := by
  induction l with
  | nil => rfl
  | cons a t ih => exact ih

/-! ### Helper lemmas about the parse loop -/

theorem parseFiles_frame (parses : String → Bool) (files : List FileWithContent) :
    ∀ (h : THeap) (r b : Nat), b ≠ r →
      ((parseFiles parses h r files).1).get b = h.get b := by
  induction files with
  | nil => intro h r b _; rfl
  | cons f rest ih =>
    intro h r b hb
    by_cases hp : parses f.content = true
    · simp only [parseFiles, newParse, hp, if_true]
      rw [ih (h.set r (nsSet (h.get r) f.name f.content)) r b hb]
      exact cellGet_cellSet_ne h.cells r b _ hb
    · have hpf : parses f.content = false := by simpa using hp
      simp [parseFiles, newParse, hpf]

theorem parseFiles_ok_snd (parses : String → Bool) (files : List FileWithContent) :
    ∀ (h : THeap) (r : Nat), (∀ f ∈ files, parses f.content = true) →
      (parseFiles parses h r files).2 = .ok r := by
  induction files with
  | nil => intro h r _; rfl
  | cons f rest ih =>
    intro h r hall
    have hp : parses f.content = true := hall f (List.mem_cons_self f rest)
    simp only [parseFiles, newParse, hp, if_true]
    exact ih _ r (fun g hg => hall g (List.mem_cons_of_mem f hg))

theorem parseFiles_ok_get (parses : String → Bool) (files : List FileWithContent) :
    ∀ (h : THeap) (r : Nat), r < h.cells.length → (∀ f ∈ files, parses f.content = true) →
      ((parseFiles parses h r files).1).get r =
        files.foldl (fun ns f => nsSet ns f.name f.content) (h.get r) := by
  induction files with
  | nil => intro h r _ _; rfl
  | cons f rest ih =>
    intro h r hr hall
    have hp : parses f.content = true := hall f (List.mem_cons_self f rest)
    simp only [parseFiles, newParse, hp, if_true, List.foldl_cons]
    have hr2 : r < (THeap.set h r (nsSet (h.get r) f.name f.content)).cells.length := by
      show r < (cellSet h.cells r _).length
      rw [length_cellSet]; exact hr
    rw [ih _ r hr2 (fun g hg => hall g (List.mem_cons_of_mem f hg))]
    have : (THeap.set h r (nsSet (h.get r) f.name f.content)).get r =
        nsSet (h.get r) f.name f.content := cellGet_cellSet_self h.cells r _ hr
    rw [this]

theorem parseFiles_err (parses : String → Bool) (pre : List FileWithContent)
    (f : FileWithContent) (post : List FileWithContent) :
    ∀ (h : THeap) (r : Nat), (∀ g ∈ pre, parses g.content = true) → parses f.content = false →
      (parseFiles parses h r (pre ++ f :: post)).2 =
        .error (.wrap ("failed to parse template") (.parseErr f.name)) := by
  induction pre with
  | nil =>
    intro h r _ hf
    simp [parseFiles, newParse, hf]
  | cons g rest ih =>
    intro h r hall hf
    have hp : parses g.content = true := hall g (List.mem_cons_self g rest)
    simp only [List.cons_append, parseFiles, newParse, hp, if_true]
    exact ih _ r (fun g2 hg2 => hall g2 (List.mem_cons_of_mem g hg2)) hf

/-! ### Helper lemmas about namespaces -/

theorem nsLookup_nsSet (ns : TemplateNS) (n c m : String) :
    nsLookup (nsSet ns n c) m = if n = m then some c else nsLookup ns m := by
  induction ns with
  | nil => simp [nsSet, nsLookup]
  | cons kv rest ih =>
    obtain ⟨k, v⟩ := kv
    by_cases hk : k = n
    · subst hk
      simp only [nsSet, if_true]
      by_cases hm : k = m
      · subst hm; simp [nsLookup]
      · simp [nsLookup, hm]
    · simp only [nsSet, hk, if_false]
      by_cases hm : k = m
      · subst hm
        have : ¬(n = k) := fun hc => hk hc.symm
        simp [nsLookup, this]
      · simp [nsLookup, hm, ih]

theorem nsLookup_foldl (files : List FileWithContent) :
    ∀ (init : TemplateNS) (n : String),
      nsLookup (files.foldl (fun ns f => nsSet ns f.name f.content) init) n =
        (lastContent files n).or (nsLookup init n) := by
  induction files with
  | nil => intro init n; simp [lastContent]
  | cons f rest ih =>
    intro init n
    simp only [List.foldl_cons, lastContent, ih, nsLookup_nsSet]
    cases hrec : lastContent rest n with
    | some c => simp
    | none =>
      by_cases hn : f.name = n
      · simp [hn]
      · simp [hn]

theorem lastContent_isSome_of_mem (files : List FileWithContent) (f : FileWithContent)
    (hf : f ∈ files) : (lastContent files f.name).isSome = true := by
  induction files with
  | nil => simp at hf
  | cons g rest ih =>
    rcases List.mem_cons.mp hf with hfg | hfr
    · subst hfg
      cases hrec : lastContent rest f.name with
      | some c => simp [lastContent, hrec]
      | none => simp [lastContent, hrec]
    · have := ih hfr
      obtain ⟨c, hc⟩ := Option.isSome_iff_exists.mp this
      simp [lastContent, hc]

/-! ### Claims about the template assembler -/

/-- C3: for every fragment list given to `CreateTemplate`, if parsing
some fragment's content fails (all fragments before it parsing), the
whole operation returns an error that identifies the offending
fragment's name (the engine's parse error carries the template name,
wrapped by `failed to parse template`), and no compiled unit is
returned (the `Except.error` result carries no template reference —
the Go function returns `nil`). -/
theorem spec_c3 (parses : String → Bool) (h : THeap) (base : Option Nat)
    (pre post : List FileWithContent) (f : FileWithContent)
    (hpre : ∀ g ∈ pre, parses g.content = true) (hf : parses f.content = false) :
    (CreateTemplate parses h base (pre ++ f :: post)).2 =
      .error (.wrap ("failed to parse template") (.parseErr f.name)) := by
  cases base with
  | some b =>
    simp only [CreateTemplate, THeap.alloc]
    exact parseFiles_err parses pre f post _ _ hpre hf
  | none =>
    simp only [CreateTemplate, THeap.alloc]
    exact parseFiles_err parses pre f post _ _ hpre hf

/-- C3 witness: a concrete failing fragment. -/
theorem spec_c3_witness :
    (CreateTemplate (fun c => decide (c ≠ "BAD")) ⟨[]⟩ none [⟨"b", "BAD"⟩]).2 =
      .error (.wrap ("failed to parse template") (.parseErr ("b"))) :=
  spec_c3 (fun c => decide (c ≠ "BAD")) ⟨[]⟩ none [] [] ⟨"b", "BAD"⟩ (by simp) (by decide)

/-- C8: `CreateTemplate` never mutates the caller's base template: for
any heap, whatever the outcome of the parse loop (success or failure),
the cell holding the base still holds exactly the namespace it held
before the call; and with no base, assembly starts from a fresh empty
namespace, so the produced unit is exactly the fold of the fragments
over the empty namespace. -/
theorem spec_c8 (parses : String → Bool) :
    (∀ (h : THeap) (b : Nat) (files : List FileWithContent), b < h.cells.length →
      ((CreateTemplate parses h (some b) files).1).get b = h.get b)
    ∧ (∀ (h : THeap) (files : List FileWithContent), (∀ f ∈ files, parses f.content = true) →
      ∃ r, (CreateTemplate parses h none files).2 = .ok r ∧
        ((CreateTemplate parses h none files).1).get r =
          files.foldl (fun ns f => nsSet ns f.name f.content) []) := by
  constructor
  · intro h b files hb
    simp only [CreateTemplate, THeap.alloc]
    have hbne : b ≠ h.cells.length := Nat.ne_of_lt hb
    rw [parseFiles_frame parses files ⟨h.cells ++ [h.get b]⟩ h.cells.length b hbne]
    show cellGet (h.cells ++ [h.get b]) b = h.get b
    exact cellGet_append_lt h.cells [h.get b] b hb
  · intro h files hall
    refine ⟨h.cells.length, ?_, ?_⟩
    · simp only [CreateTemplate, THeap.alloc]
      exact parseFiles_ok_snd parses files ⟨h.cells ++ [[]]⟩ h.cells.length hall
    · simp only [CreateTemplate, THeap.alloc]
      have hlen : h.cells.length < (THeap.mk (h.cells ++ [[]])).cells.length := by
        simp
      rw [parseFiles_ok_get parses files ⟨h.cells ++ [[]]⟩ h.cells.length hlen hall]
      have : (THeap.mk (h.cells ++ [[]])).get h.cells.length = [] :=
        cellGet_append_len h.cells []
      rw [this]

/-- C8 witness: a concrete base cell is untouched after assembling a
fragment into a clone. -/
theorem spec_c8_witness :
    ((CreateTemplate (fun _ => true) ⟨[[("x", "X")]]⟩ (some 0) [⟨"a", "1"⟩]).1).get 0 =
      THeap.get ⟨[[("x", "X")]]⟩ 0 :=
  (spec_c8 (fun _ => true)).1 ⟨[[("x", "X")]]⟩ 0 [⟨"a", "1"⟩] (by decide)

/-- C9: when every fragment's content parses, `CreateTemplate`
succeeds — duplicate names included — and the produced unit holds a
named sub-template for every input fragment's name, whose stored
content is that of the last fragment with that name in input order
(last parse wins). -/
theorem spec_c9 (parses : String → Bool) (h : THeap) (base : Option Nat)
    (files : List FileWithContent) (hall : ∀ f ∈ files, parses f.content = true) :
    ∃ r, (CreateTemplate parses h base files).2 = .ok r ∧
      ∀ f ∈ files,
        nsLookup (((CreateTemplate parses h base files).1).get r) f.name =
          lastContent files f.name
        ∧ (nsLookup (((CreateTemplate parses h base files).1).get r) f.name).isSome = true := by
  have main : ∀ (init : TemplateNS),
      ∃ r, (parseFiles parses ⟨h.cells ++ [init]⟩ h.cells.length files).2 = .ok r ∧
        ∀ f ∈ files,
          nsLookup (((parseFiles parses ⟨h.cells ++ [init]⟩ h.cells.length files).1).get r) f.name =
            lastContent files f.name
          ∧ (nsLookup (((parseFiles parses ⟨h.cells ++ [init]⟩ h.cells.length files).1).get r) f.name).isSome
              = true := by
    intro init
    refine ⟨h.cells.length, parseFiles_ok_snd parses files _ _ hall, ?_⟩
    intro f hf
    have hlen : h.cells.length < (THeap.mk (h.cells ++ [init])).cells.length := by simp
    rw [parseFiles_ok_get parses files ⟨h.cells ++ [init]⟩ h.cells.length hlen hall]
    have hinit : (THeap.mk (h.cells ++ [init])).get h.cells.length = init :=
      cellGet_append_len h.cells init
    rw [hinit, nsLookup_foldl]
    have hsome := lastContent_isSome_of_mem files f hf
    obtain ⟨c, hc⟩ := Option.isSome_iff_exists.mp hsome
    rw [hc]
    exact ⟨rfl, rfl⟩
  cases base with
  | some b =>
    simpa only [CreateTemplate, THeap.alloc] using main (h.get b)
  | none =>
    simpa only [CreateTemplate, THeap.alloc] using main []

/-- C9 witness: duplicate names assemble without error and the last
content wins. -/
theorem spec_c9_witness :
    ∃ r, (CreateTemplate (fun _ => true) ⟨[]⟩ none [⟨"a", "1"⟩, ⟨"a", "2"⟩]).2 = .ok r ∧
      ∀ f ∈ ([⟨"a", "1"⟩, ⟨"a", "2"⟩] : List FileWithContent),
        nsLookup (((CreateTemplate (fun _ => true) ⟨[]⟩ none [⟨"a", "1"⟩, ⟨"a", "2"⟩]).1).get r) f.name =
          lastContent [⟨"a", "1"⟩, ⟨"a", "2"⟩] f.name
        ∧ (nsLookup (((CreateTemplate (fun _ => true) ⟨[]⟩ none [⟨"a", "1"⟩, ⟨"a", "2"⟩]).1).get r) f.name).isSome
            = true :=
  spec_c9 (fun _ => true) ⟨[]⟩ none [⟨"a", "1"⟩, ⟨"a", "2"⟩] (by simp)

/-! ### Claim about the layouted load path -/

/-- C1: when the partial resolver and both file reads succeed, the
loader's `InLayout` hands the assembler exactly
`partials ++ [layout fragment] ++ [wrapped page fragment]` — observable
because the assembler field is arbitrary: an `ok` of the assembler on
precisely that list is returned as-is, an `error` is returned wrapped;
the wrapped page fragment keeps the page's name with its content
wrapped in the "content" definition, and the layout fragment sits at
index `partials.length`, strictly before the wrapped page fragment at
index `partials.length + 1`. -/
theorem spec_c1 {τ : Type} (ct : List FileWithContent → Except Err τ)
    (pf : String → Except Err (List FileWithContent)) (fsys : FSys)
    (page layout : String) (partials : List FileWithContent) (pc lc : String)
    (hpf : pf page = .ok partials)
    (hpg : fsys.readFile page = .ok pc)
    (hly : fsys.readFile layout = .ok lc) :
    (∀ t, ct (partials ++ [⟨layout, lc⟩, ⟨page, wrapInContent pc⟩]) = .ok t →
      LoaderM.InLayout
        ⟨pf, TemplateByNameLoader.Standalone fsys, TemplateByNameLoader.InLayout fsys, ct⟩
        page layout = .ok t)
    ∧ (∀ e, ct (partials ++ [⟨layout, lc⟩, ⟨page, wrapInContent pc⟩]) = .error e →
      LoaderM.InLayout
        ⟨pf, TemplateByNameLoader.Standalone fsys, TemplateByNameLoader.InLayout fsys, ct⟩
        page layout =
        .error (.wrap ("failed to create template for " ++ goQuote page ++ " in layout " ++
          goQuote layout) e))
    ∧ (partials ++ [⟨layout, lc⟩, ⟨page, wrapInContent pc⟩])[partials.length]? =
        some ⟨layout, lc⟩
    ∧ (partials ++ [⟨layout, lc⟩, ⟨page, wrapInContent pc⟩])[partials.length + 1]? =
        some ⟨page, wrapInContent pc⟩ := by
  have hTL : TemplateByNameLoader.InLayout fsys page layout =
      .ok [⟨layout, lc⟩, ⟨page, wrapInContent pc⟩] := by
    simp only [TemplateByNameLoader.InLayout, TemplateByNameLoader.Standalone, hpg, hly,
      List.map_cons, List.map_nil]
  refine ⟨?_, ?_, ?_, ?_⟩
  · intro t hct
    simp only [LoaderM.InLayout, hpf, hTL, hct]
  · intro e hct
    simp only [LoaderM.InLayout, hpf, hTL, hct]
  · rw [List.getElem?_append_right (Nat.le_refl partials.length)]
    simp
  · rw [List.getElem?_append_right (Nat.le_succ_of_le (Nat.le_refl partials.length))]
    simp

/-- C1 witness: a concrete page, layout and resolver, observed with the
identity assembler. -/
theorem spec_c1_witness :
    LoaderM.InLayout
      ⟨fun _ => .ok [⟨"_p.tmpl", "P"⟩],
       TemplateByNameLoader.Standalone ⟨[("t.tmpl", "Hello"), ("layouts/l.tmpl", "LAY")], [], []⟩,
       TemplateByNameLoader.InLayout ⟨[("t.tmpl", "Hello"), ("layouts/l.tmpl", "LAY")], [], []⟩,
       fun l => .ok l⟩
      ("t.tmpl") ("layouts/l.tmpl") =
      .ok [⟨"_p.tmpl", "P"⟩, ⟨"layouts/l.tmpl", "LAY"⟩, ⟨"t.tmpl", wrapInContent ("Hello")⟩] :=
  (spec_c1 (fun l => .ok l) (fun _ => .ok [⟨"_p.tmpl", "P"⟩])
    ⟨[("t.tmpl", "Hello"), ("layouts/l.tmpl", "LAY")], [], []⟩
    ("t.tmpl") ("layouts/l.tmpl") [⟨"_p.tmpl", "P"⟩] ("Hello") ("LAY")
    rfl rfl rfl).1 _ rfl

/-! ### Claim about the cached loader -/

/-- C2: for a key not yet cached, the first call invokes the underlying
loader (the counter advances by one).  If that invocation succeeds the
result is stored under the key and returned, and a second call with
the same key returns the stored result without invoking the underlying
loader again (one underlying call across both); indeed any call on any
state holding the key returns the stored value with the state — hence
the counter — untouched.  If the first invocation fails, nothing is
stored and the error is returned, so a second call invokes the
underlying loader again (two underlying calls across the two).  Both
the `Standalone` key (the name) and the `InLayout` key
(`name ++ "|" ++ layout`) are covered. -/
theorem spec_c2 (u : UnderLoader) (s : CState) (name layout : String)
    (hm1 : lookupCache s.data (cacheKeyStandalone name) = none)
    (hm2 : lookupCache s.data (cacheKeyInLayout name layout) = none) :
    (∀ v, u.standalone s.calls name = .ok v →
      CachedLoader.Standalone u s name =
        (⟨(cacheKeyStandalone name, v) :: s.data, s.calls + 1⟩, .ok v)
      ∧ (CachedLoader.Standalone u (CachedLoader.Standalone u s name).1 name).2 = .ok v
      ∧ (CachedLoader.Standalone u (CachedLoader.Standalone u s name).1 name).1.calls = s.calls + 1)
    ∧ (∀ e, u.standalone s.calls name = .error e →
      CachedLoader.Standalone u s name = (⟨s.data, s.calls + 1⟩, .error e)
      ∧ (CachedLoader.Standalone u (CachedLoader.Standalone u s name).1 name).1.calls = s.calls + 2)
    ∧ (∀ (u2 : UnderLoader) (s2 : CState) (v : List FileWithContent),
      lookupCache s2.data (cacheKeyStandalone name) = some v →
      CachedLoader.Standalone u2 s2 name = (s2, .ok v))
    ∧ (∀ v, u.inLayout s.calls name layout = .ok v →
      CachedLoader.InLayout u s name layout =
        (⟨(cacheKeyInLayout name layout, v) :: s.data, s.calls + 1⟩, .ok v)
      ∧ (CachedLoader.InLayout u (CachedLoader.InLayout u s name layout).1 name layout).2 = .ok v
      ∧ (CachedLoader.InLayout u (CachedLoader.InLayout u s name layout).1 name layout).1.calls =
          s.calls + 1)
    ∧ (∀ e, u.inLayout s.calls name layout = .error e →
      CachedLoader.InLayout u s name layout = (⟨s.data, s.calls + 1⟩, .error e)
      ∧ (CachedLoader.InLayout u (CachedLoader.InLayout u s name layout).1 name layout).1.calls =
          s.calls + 2) := by
  refine ⟨?_, ?_, ?_, ?_, ?_⟩
  · intro v hv
    have h1 : CachedLoader.Standalone u s name =
        (⟨(cacheKeyStandalone name, v) :: s.data, s.calls + 1⟩, .ok v) := by
      simp only [CachedLoader.Standalone, CachedLoader.loadOrStore, hm1, hv]
    refine ⟨h1, ?_, ?_⟩
    · rw [h1]
      simp [CachedLoader.Standalone, CachedLoader.loadOrStore, lookupCache]
    · rw [h1]
      simp [CachedLoader.Standalone, CachedLoader.loadOrStore, lookupCache]
  · intro e he
    have h1 : CachedLoader.Standalone u s name = (⟨s.data, s.calls + 1⟩, .error e) := by
      simp only [CachedLoader.Standalone, CachedLoader.loadOrStore, hm1, he]
    refine ⟨h1, ?_⟩
    rw [h1]
    simp only [CachedLoader.Standalone, CachedLoader.loadOrStore]
    rw [show (⟨s.data, s.calls + 1⟩ : CState).data = s.data from rfl, hm1]
    cases u.standalone (⟨s.data, s.calls + 1⟩ : CState).calls name <;> rfl
  · intro u2 s2 v hv
    simp only [CachedLoader.Standalone, CachedLoader.loadOrStore, hv]
  · intro v hv
    have h1 : CachedLoader.InLayout u s name layout =
        (⟨(cacheKeyInLayout name layout, v) :: s.data, s.calls + 1⟩, .ok v) := by
      simp only [CachedLoader.InLayout, CachedLoader.loadOrStore, hm2, hv]
    refine ⟨h1, ?_, ?_⟩
    · rw [h1]
      simp [CachedLoader.InLayout, CachedLoader.loadOrStore, lookupCache]
    · rw [h1]
      simp [CachedLoader.InLayout, CachedLoader.loadOrStore, lookupCache]
  · intro e he
    have h1 : CachedLoader.InLayout u s name layout = (⟨s.data, s.calls + 1⟩, .error e) := by
      simp only [CachedLoader.InLayout, CachedLoader.loadOrStore, hm2, he]
    refine ⟨h1, ?_⟩
    rw [h1]
    simp only [CachedLoader.InLayout, CachedLoader.loadOrStore]
    rw [show (⟨s.data, s.calls + 1⟩ : CState).data = s.data from rfl, hm2]
    cases u.inLayout (⟨s.data, s.calls + 1⟩ : CState).calls name layout <;> rfl

/-- C2 witness: two calls after a first successful call reuse the
cached value. -/
theorem spec_c2_witness :
    CachedLoader.Standalone ⟨fun _ _ => .ok [⟨"e.tmpl", "E"⟩], fun _ _ _ => .ok []⟩ ⟨[], 0⟩
      ("e.tmpl") =
      (⟨[(cacheKeyStandalone ("e.tmpl"), [⟨"e.tmpl", "E"⟩])], 1⟩, .ok [⟨"e.tmpl", "E"⟩]) :=
  ((spec_c2 ⟨fun _ _ => .ok [⟨"e.tmpl", "E"⟩], fun _ _ _ => .ok []⟩ ⟨[], 0⟩
    ("e.tmpl") ("l.tmpl") rfl rfl).1 [⟨"e.tmpl", "E"⟩] rfl).1

/-! ### String helper lemmas -/

theorem strData_append (s t : String) : (s ++ t).data = s.data ++ t.data := by
  cases s; cases t; rfl

theorem str_eq_of_data {s t : String} (h : s.data = t.data) : s = t := by
  cases s; cases t; exact congrArg String.mk h

theorem cacheKeyInLayout_data (a b : String) :
    (cacheKeyInLayout a b).data = a.data ++ '|' :: b.data := by
  show ((a ++ "|") ++ b).data = _
  rw [strData_append, strData_append]
  simp

theorem sep_append_inj : ∀ (a c b d : List Char), '|' ∉ a → '|' ∉ c →
    a ++ '|' :: b = c ++ '|' :: d → a = c ∧ b = d := by
  intro a
  induction a with
  | nil =>
    intro c b d _ hc h
    cases c with
    | nil => simpa using h
    | cons y ys =>
      rw [List.nil_append, List.cons_append] at h
      have hy : y = '|' := (List.cons.injEq _ _ _ _ ▸ h).1.symm
      exact absurd (hy ▸ List.mem_cons_self y ys) hc
  | cons x xs ih =>
    intro c b d ha hc h
    cases c with
    | nil =>
      rw [List.cons_append, List.nil_append] at h
      have hx : x = '|' := (List.cons.injEq _ _ _ _ ▸ h).1
      exact absurd (hx ▸ List.mem_cons_self x xs) ha
    | cons y ys =>
      rw [List.cons_append, List.cons_append] at h
      have hxy := (List.cons.injEq _ _ _ _ ▸ h).1
      have hrest := (List.cons.injEq _ _ _ _ ▸ h).2
      have hxs : '|' ∉ xs := fun hm => ha (List.mem_cons_of_mem x hm)
      have hys : '|' ∉ ys := fun hm => hc (List.mem_cons_of_mem y hm)
      obtain ⟨h1, h2⟩ := ih ys b d hxs hys hrest
      exact ⟨by rw [hxy, h1], h2⟩

/-! ### Claim about the cache key -/

/-- C4: the cache key function is injective over valid names (names
not containing the separator `|`): distinct page/layout pairs yield
distinct layouted keys, and a layouted key never collides with a
standalone key. -/
theorem spec_c4 (a b c d : String)
    (ha : '|' ∉ a.data) (hb : '|' ∉ b.data) (hc : '|' ∉ c.data) (hd : '|' ∉ d.data) :
    (¬(a = c ∧ b = d) → cacheKeyInLayout a b ≠ cacheKeyInLayout c d)
    ∧ (∀ e : String, '|' ∉ e.data → cacheKeyInLayout a b ≠ cacheKeyStandalone e) := by
  constructor
  · intro hne heq
    have hdata := congrArg String.data heq
    rw [cacheKeyInLayout_data, cacheKeyInLayout_data] at hdata
    obtain ⟨h1, h2⟩ := sep_append_inj a.data c.data b.data d.data ha hc hdata
    exact hne ⟨str_eq_of_data h1, str_eq_of_data h2⟩
  · intro e he heq
    have hdata := congrArg String.data heq
    rw [cacheKeyInLayout_data] at hdata
    have hmem : '|' ∈ a.data ++ '|' :: b.data :=
      List.mem_append_right _ (List.mem_cons_self _ _)
    rw [hdata] at hmem
    exact he hmem

/-- C4 witness: concrete distinct pairs produce distinct keys. -/
theorem spec_c4_witness :
    cacheKeyInLayout ("a") ("b") ≠ cacheKeyInLayout ("c") ("d") :=
  (spec_c4 ("a") ("b") ("c") ("d") (by decide) (by decide) (by decide) (by decide)).1 (by decide)

/-! ### Extension-stripping lemmas -/

theorem extAux_step_slash (c : Char) (rest acc : List Char) (hs : c = '/') :
    extAux (c :: rest) acc = [] := by
  show (if c = '/' then [] else if c = '.' then c :: acc else extAux rest (c :: acc)) = []
  rw [if_pos hs]

theorem extAux_step_dot (c : Char) (rest acc : List Char) (hs : ¬(c = '/')) (hd : c = '.') :
    extAux (c :: rest) acc = c :: acc := by
  show (if c = '/' then [] else if c = '.' then c :: acc else extAux rest (c :: acc)) = c :: acc
  rw [if_neg hs, if_pos hd]

theorem extAux_step_other (c : Char) (rest acc : List Char) (hs : ¬(c = '/')) (hd : ¬(c = '.')) :
    extAux (c :: rest) acc = extAux rest (c :: acc) := by
  show (if c = '/' then [] else if c = '.' then c :: acc else extAux rest (c :: acc)) =
    extAux rest (c :: acc)
  rw [if_neg hs, if_neg hd]

theorem extAux_suffix : ∀ (r acc : List Char), List.IsSuffix (extAux r acc) (r.reverse ++ acc) := by
  intro r
  induction r with
  | nil => intro acc; exact ⟨acc, by simp [extAux]⟩
  | cons c rest ih =>
    intro acc
    by_cases hs : c = '/'
    · rw [extAux_step_slash c rest acc hs]
      exact ⟨((c :: rest).reverse ++ acc), by simp⟩
    · by_cases hd : c = '.'
      · rw [extAux_step_dot c rest acc hs hd]
        exact ⟨rest.reverse, by simp⟩
      · rw [extAux_step_other c rest acc hs hd]
        have := ih (c :: acc)
        simpa using this

theorem extAux_shape : ∀ (r acc : List Char), (∀ x ∈ acc, ¬(x = '.') ∧ ¬(x = '/')) →
    extAux r acc = [] ∨
      ∃ tail, extAux r acc = '.' :: tail ∧ ∀ x ∈ tail, ¬(x = '.') ∧ ¬(x = '/') := by
  intro r
  induction r with
  | nil => intro acc _; exact Or.inl rfl
  | cons c rest ih =>
    intro acc hacc
    by_cases hs : c = '/'
    · rw [extAux_step_slash c rest acc hs]
      exact Or.inl rfl
    · by_cases hd : c = '.'
      · rw [extAux_step_dot c rest acc hs hd]
        exact Or.inr ⟨acc, by rw [hd], hacc⟩
      · rw [extAux_step_other c rest acc hs hd]
        refine ih (c :: acc) ?_
        intro x hx
        rcases List.mem_cons.mp hx with hxc | hxa
        · exact ⟨hxc ▸ hd, hxc ▸ hs⟩
        · exact hacc x hxa

/-! ### Claim about extension stripping -/

/-- C6: the partial directory is the page name with exactly its final
extension stripped: the directory concatenated with `path.Ext` of the
name restores the name; the extension contains no further dot or slash
after its leading dot (so nothing beyond the final extension is
stripped); and concretely `"test.tmpl.html"` resolves to
`"test.tmpl"`, not `"test"`. -/
theorem spec_c6 :
    (∀ name : String, partialDir name ++ goPathExt name = name)
    ∧ (∀ name : String, ∀ c ∈ (goPathExt name).data.drop 1, ¬(c = '.') ∧ ¬(c = '/'))
    ∧ partialDir ("test.tmpl.html") = "test.tmpl"
    ∧ goPathExt ("test.tmpl.html") = ".html" := by
  refine ⟨?_, ?_, by decide, by decide⟩
  · intro name
    have hsuf : List.IsSuffix (goPathExt name).data name.data := by
      have := extAux_suffix name.data.reverse []
      simpa [goPathExt] using this
    obtain ⟨t, ht⟩ := hsuf
    have hlen : name.data.length = t.length + (goPathExt name).data.length := by
      rw [← ht, List.length_append]
    have hbool : (goPathExt name).data.isSuffixOf name.data = true :=
      List.isSuffixOf_iff_suffix.mpr ⟨t, ht⟩
    have hdir : (partialDir name).data = t := by
      show (trimSuffix name (goPathExt name)).data = t
      rw [trimSuffix, if_pos hbool]
      show name.data.take (name.data.length - (goPathExt name).data.length) = t
      have hn : name.data.length - (goPathExt name).data.length = t.length := by omega
      rw [hn, ← ht]
      exact List.take_left t (goPathExt name).data
    apply str_eq_of_data
    rw [strData_append, hdir, ht]
  · intro name c hcmem
    rcases extAux_shape name.data.reverse [] (by simp) with hnil | ⟨tail, htl, hclean⟩
    · have : (goPathExt name).data = [] := by simp [goPathExt, hnil]
      rw [this] at hcmem
      simp at hcmem
    · have : (goPathExt name).data = '.' :: tail := by simp [goPathExt, htl]
      rw [this] at hcmem
      exact hclean c (by simpa using hcmem)

/-- C6 witness: the general restoration fact at a concrete name. -/
theorem spec_c6_witness : partialDir ("a.b.c") ++ goPathExt ("a.b.c") = "a.b.c" :=
  spec_c6.1 ("a.b.c")

/-! ### Filesystem lemmas -/

theorem lookupPairs_isSome_of_mem : ∀ (l : List (String × String)) (kv : String × String),
    kv ∈ l → (lookupPairs l kv.1).isSome = true := by
  intro l
  induction l with
  | nil => intro kv hkv; simp at hkv
  | cons a rest ih =>
    intro kv hkv
    obtain ⟨k, v⟩ := a
    by_cases hk : k = kv.1
    · simp [lookupPairs, hk]
    · rcases List.mem_cons.mp hkv with hkva | hkvr
      · exact absurd (by rw [hkva]) hk
      · simp only [lookupPairs, hk, if_false]
        exact ih kv hkvr

theorem mem_pathsUnder_lookup (fsys : FSys) (dir p : String)
    (hp : p ∈ fsys.pathsUnder dir) : (lookupPairs fsys.files p).isSome = true := by
  obtain ⟨f, hf, hfp⟩ := List.mem_map.mp hp
  have hmem : f ∈ fsys.files := (List.mem_filter.mp hf).1
  have := lookupPairs_isSome_of_mem fsys.files f hmem
  rw [hfp] at this
  exact this

theorem readAll_ok (fsys : FSys) : ∀ (paths : List String),
    (∀ p ∈ paths, fsys.badReads.contains p = false ∧ (lookupPairs fsys.files p).isSome = true) →
    ∃ l, readAll fsys paths = .ok l := by
  intro paths
  induction paths with
  | nil => intro _; exact ⟨[], rfl⟩
  | cons p rest ih =>
    intro hall
    obtain ⟨hbr, hsome⟩ := hall p (List.mem_cons_self p rest)
    obtain ⟨c, hc⟩ := Option.isSome_iff_exists.mp hsome
    have hbr2 : p ∉ fsys.badReads := by simpa using hbr
    have hread : fsys.readFile p = .ok c := by
      simp [FSys.readFile, hbr2, hc]
    obtain ⟨l, hl⟩ := ih (fun q hq => hall q (List.mem_cons_of_mem p hq))
    exact ⟨⟨p, c⟩ :: l, by simp [readAll, hread, hl]⟩

theorem readAll_err (fsys : FSys) : ∀ (paths : List String),
    (∀ p ∈ paths, (lookupPairs fsys.files p).isSome = true) →
    (∃ p ∈ paths, fsys.badReads.contains p = true) →
    ∃ q, readAll fsys paths = .error (.fsErr q) ∧ fsys.badReads.contains q = true := by
  intro paths
  induction paths with
  | nil => intro _ hex; simp at hex
  | cons p rest ih =>
    intro hall hex
    by_cases hbp : fsys.badReads.contains p = true
    · have hbp2 : p ∈ fsys.badReads := by simpa using hbp
      have hread : fsys.readFile p = .error (.fsErr p) := by
        simp [FSys.readFile, hbp2]
      exact ⟨p, by simp [readAll, hread], hbp⟩
    · obtain ⟨c, hc⟩ := Option.isSome_iff_exists.mp (hall p (List.mem_cons_self p rest))
      have hbp2 : p ∉ fsys.badReads := by simpa using hbp
      have hread : fsys.readFile p = .ok c := by
        simp [FSys.readFile, hbp2, hc]
      have hexr : ∃ q ∈ rest, fsys.badReads.contains q = true := by
        obtain ⟨q, hq, hbq⟩ := hex
        rcases List.mem_cons.mp hq with hqp | hqr
        · exact absurd (hqp ▸ hbq) hbp
        · exact ⟨q, hqr, hbq⟩
      obtain ⟨q, hq, hbq⟩ := ih (fun x hx => hall x (List.mem_cons_of_mem p hx)) hexr
      exact ⟨q, by simp [readAll, hread, hq], hbq⟩

theorem pifo_clean_ok (fsys : FSys) (name : String)
    (hw : fsys.badWalk = []) (hr : fsys.badReads = []) :
    ∃ l, PartialsInFolderOnly.Load fsys name = .ok l := by
  show ∃ l, walkPartialFiles fsys (partialDir name) = .ok l
  have hcw : partialDir name ∉ fsys.badWalk := by simp [hw]
  by_cases he : (fsys.pathsUnder (partialDir name)).isEmpty = true
  · exact ⟨[], by simp [walkPartialFiles, hcw, he]⟩
  · obtain ⟨l, hl⟩ := readAll_ok fsys (fsys.pathsUnder (partialDir name)) (fun p hp =>
      ⟨by rw [hr]; rfl, mem_pathsUnder_lookup fsys (partialDir name) p hp⟩)
    refine ⟨l, ?_⟩
    simp only [Bool.not_eq_true] at he
    simp [walkPartialFiles, hcw, he, hl]

/-! ### Claim about the render facade's missing-page behaviour -/

/-- C5: for a page name with no file in the fragment store (and no
injected generic filesystem faults), `Render` over the default stack
returns the read error — `fs.ErrNotExist` wrapped by the template
loader and then by the loader's collection context — and the supplied
writer is unchanged; the error is of the fragment-not-found class
(`errors.Is(err, fs.ErrNotExist)` holds). -/
theorem spec_c5 (parses : String → Bool) (exec : TemplateNS → String → String × Option Err)
    (fsys : FSys) (out name : String)
    (hw : fsys.badWalk = []) (hr : fsys.badReads = [])
    (hmiss : lookupPairs fsys.files name = none) :
    Passepartout.Render parses exec fsys out name =
      (out, some (.wrap ("failed to collect all files for " ++ goQuote name)
        (.wrap ("failed to read template") (.notExist name))))
    ∧ (Err.wrap ("failed to collect all files for " ++ goQuote name)
        (.wrap ("failed to read template") (.notExist name))).isNotExist = true := by
  refine ⟨?_, rfl⟩
  obtain ⟨l, hl⟩ := pifo_clean_ok fsys name hw hr
  have hnb : name ∉ fsys.badReads := by simp [hr]
  have hread : fsys.readFile name = .error (.notExist name) := by
    simp [FSys.readFile, hnb, hmiss]
  have hstand : TemplateByNameLoader.Standalone fsys name =
      .error (.wrap ("failed to read template") (.notExist name)) := by
    simp [TemplateByNameLoader.Standalone, hread]
  have hflat : flatMap name [(WithDefaults parses fsys).partialsFor,
      (WithDefaults parses fsys).tlStandalone] =
      .error (.wrap ("failed to read template") (.notExist name)) := by
    show flatMap name [PartialsInFolderOnly.Load fsys, TemplateByNameLoader.Standalone fsys] = _
    simp [flatMap, hl, hstand]
  show (match LoaderM.Standalone (WithDefaults parses fsys) name with
    | .error e => (out, some e)
    | .ok t => (out ++ (exec t name).1, (exec t name).2)) = _
  rw [LoaderM.Standalone, hflat]

/-- C5 witness: rendering a missing page on a concrete store. -/
theorem spec_c5_witness :
    Passepartout.Render (fun _ => true) (fun _ _ => ("", none)) ⟨[], [], []⟩ ("W") ("missing.tmpl") =
      ("W", some (.wrap ("failed to collect all files for " ++ goQuote ("missing.tmpl"))
        (.wrap ("failed to read template") (.notExist ("missing.tmpl"))))) :=
  (spec_c5 (fun _ => true) (fun _ _ => ("", none)) ⟨[], [], []⟩ ("W") ("missing.tmpl")
    rfl rfl rfl).1

/-! ### Claim about the partial resolvers' error discipline -/

/-- C7: a nonexistent partial directory yields an empty list and no
error — for the folder-only resolver, and for the folder-plus-common
resolver when both its directories are missing; a generic (non
not-exists) filesystem error — at the walk root or while reading a
visited file — makes the resolver return that error (never of the
not-exists class) instead of a list, for either resolver. -/
theorem spec_c7 :
    (∀ (fsys : FSys) (name : String), partialDir name ∉ fsys.badWalk →
      fsys.pathsUnder (partialDir name) = [] →
      PartialsInFolderOnly.Load fsys name = .ok [])
    ∧ (∀ (fsys : FSys) (commonDir name : String), partialDir name ∉ fsys.badWalk →
      fsys.pathsUnder (partialDir name) = [] → commonDir ∉ fsys.badWalk →
      fsys.pathsUnder commonDir = [] →
      PartialsWithCommon.Load fsys commonDir name = .ok [])
    ∧ (∀ (fsys : FSys) (name : String), partialDir name ∈ fsys.badWalk →
      PartialsInFolderOnly.Load fsys name = .error (.fsErr (partialDir name))
      ∧ (Err.fsErr (partialDir name)).isNotExist = false)
    ∧ (∀ (fsys : FSys) (name : String), partialDir name ∉ fsys.badWalk →
      (∃ p ∈ fsys.pathsUnder (partialDir name), p ∈ fsys.badReads) →
      ∃ q, PartialsInFolderOnly.Load fsys name = .error (.fsErr q)
        ∧ (Err.fsErr q).isNotExist = false)
    ∧ (∀ (fsys : FSys) (commonDir name : String), partialDir name ∉ fsys.badWalk →
      fsys.pathsUnder (partialDir name) = [] → commonDir ∈ fsys.badWalk →
      PartialsWithCommon.Load fsys commonDir name = .error (.fsErr commonDir)) := by
  have hempty : ∀ (fsys : FSys) (dir : String), dir ∉ fsys.badWalk →
      fsys.pathsUnder dir = [] → walkPartialFiles fsys dir = .ok [] := by
    intro fsys dir hbw hpu
    simp [walkPartialFiles, hbw, hpu]
  refine ⟨?_, ?_, ?_, ?_, ?_⟩
  · intro fsys name hbw hpu
    exact hempty fsys (partialDir name) hbw hpu
  · intro fsys commonDir name hbw1 hpu1 hbw2 hpu2
    show (match walkPartialFiles fsys (partialDir name) with
      | Except.error e => Except.error e
      | Except.ok a =>
        match walkPartialFiles fsys commonDir with
        | Except.error e => Except.error e
        | Except.ok b => Except.ok (a ++ b)) = Except.ok []
    rw [hempty fsys (partialDir name) hbw1 hpu1, hempty fsys commonDir hbw2 hpu2]
    rfl
  · intro fsys name hbw
    refine ⟨?_, rfl⟩
    show walkPartialFiles fsys (partialDir name) = _
    simp [walkPartialFiles, hbw]
  · intro fsys name hbw hex
    have hall : ∀ p ∈ fsys.pathsUnder (partialDir name),
        (lookupPairs fsys.files p).isSome = true :=
      fun p hp => mem_pathsUnder_lookup fsys (partialDir name) p hp
    have hex2 : ∃ p ∈ fsys.pathsUnder (partialDir name), fsys.badReads.contains p = true := by
      obtain ⟨p, hp, hbp⟩ := hex
      exact ⟨p, hp, by simpa using hbp⟩
    obtain ⟨q, hq, _⟩ := readAll_err fsys (fsys.pathsUnder (partialDir name)) hall hex2
    refine ⟨q, ?_, rfl⟩
    have hne : (fsys.pathsUnder (partialDir name)).isEmpty = false := by
      obtain ⟨p, hp, _⟩ := hex
      cases hu : fsys.pathsUnder (partialDir name) with
      | nil => rw [hu] at hp; simp at hp
      | cons x xs => rfl
    show walkPartialFiles fsys (partialDir name) = _
    simp [walkPartialFiles, hbw, hne, hq]
  · intro fsys commonDir name hbw1 hpu1 hbw2
    show (match walkPartialFiles fsys (partialDir name) with
      | Except.error e => Except.error e
      | Except.ok a =>
        match walkPartialFiles fsys commonDir with
        | Except.error e => Except.error e
        | Except.ok b => Except.ok (a ++ b)) = Except.error (Err.fsErr commonDir)
    rw [hempty fsys (partialDir name) hbw1 hpu1]
    have : walkPartialFiles fsys commonDir = .error (.fsErr commonDir) := by
      simp [walkPartialFiles, hbw2]
    rw [this]

/-- C7 witness: a missing directory yields an empty result on a
concrete store, and an injected generic root error propagates. -/
theorem spec_c7_witness :
    PartialsInFolderOnly.Load ⟨[("other.tmpl", "O")], [], []⟩ ("test.tmpl") = .ok []
    ∧ PartialsInFolderOnly.Load ⟨[("test/_a.tmpl", "A")], [], ["test"]⟩ ("test.tmpl") =
        .error (.fsErr ("test")) :=
  ⟨spec_c7.1 ⟨[("other.tmpl", "O")], [], []⟩ ("test.tmpl") (by decide) (by decide),
   ((spec_c7.2.2.1 ⟨[("test/_a.tmpl", "A")], [], ["test"]⟩ ("test.tmpl")) (by decide)).1⟩

/-! ### Claim about an extension-free page name -/

theorem isUnder_self (name : String) : isUnder name name = true := by
  simp [isUnder]

theorem lookup_of_filter_single :
    ∀ (l : List (String × String)) (name content : String),
      l.filter (fun f => isUnder name f.1) = [(name, content)] →
      lookupPairs l name = some content := by
  intro l
  induction l with
  | nil => intro name content h; simp at h
  | cons a rest ih =>
    intro name content h
    cases ha : isUnder name a.1 with
    | true =>
      rw [List.filter_cons, ha] at h
      simp only [if_true] at h
      have h1 : a = (name, content) := (List.cons_eq_cons.mp h).1
      have hk : a.1 = name := by rw [h1]
      obtain ⟨k, v⟩ := a
      have hk2 : k = name := hk
      have hv : v = content := by
        have := congrArg Prod.snd h1
        simpa using this
      simp [lookupPairs, hk2, hv]
    | false =>
      rw [List.filter_cons, ha] at h
      simp only [Bool.false_eq_true, if_false] at h
      have hk : ¬(a.1 = name) := by
        intro hc
        rw [hc] at ha
        rw [isUnder_self name] at ha
        cases ha
      obtain ⟨k, v⟩ := a
      have hk2 : ¬(k = name) := hk
      simp only [lookupPairs, hk2, if_false]
      exact ih name content h

/-- C10: for a page name whose final segment has no extension (so
stripping leaves the name unchanged), the folder-only resolver walks
the page name itself; when that path is an existing regular file (and
the only entry at or under that path, as for a real regular file), the
resolver returns exactly one fragment — the page file itself, under
its own name with its own content. -/
theorem spec_c10 (fsys : FSys) (name content : String)
    (hdir : partialDir name = name)
    (hfilter : fsys.files.filter (fun f => isUnder name f.1) = [(name, content)])
    (hbw : name ∉ fsys.badWalk)
    (hbr : name ∉ fsys.badReads) :
    PartialsInFolderOnly.Load fsys name = .ok [⟨name, content⟩] := by
  show walkPartialFiles fsys (partialDir name) = _
  rw [hdir]
  have hpu : fsys.pathsUnder name = [name] := by
    simp [FSys.pathsUnder, hfilter]
  have hlook : lookupPairs fsys.files name = some content :=
    lookup_of_filter_single fsys.files name content hfilter
  have hread : fsys.readFile name = .ok content := by
    simp [FSys.readFile, hbr, hlook]
  have hra : readAll fsys [name] = .ok [⟨name, content⟩] := by
    simp [readAll, hread]
  simp [walkPartialFiles, hbw, hpu, hra]

/-- C10 witness: a dot-free page name that is itself a regular file is
reported as its own single partial. -/
theorem spec_c10_witness :
    PartialsInFolderOnly.Load ⟨[("page", "P")], [], []⟩ ("page") = .ok [⟨"page", "P"⟩] :=
  spec_c10 ⟨[("page", "P")], [], []⟩ ("page") ("P") rfl (by decide) (by decide) (by decide)
